import Mathlib

/-!
Shallow embedding of the `proof-of-work` blockchain node (Rust sources under
`src/`): SHA-256 hashing, transactions and Merkle hashing (`tx.rs`), block
headers and proof of work (`block.rs`), the chain store (`chain.rs`), and the
node state machine (`bin/node.rs`).  Bytes are modelled as `Nat` (< 256),
machine integers as `Nat` with explicit `% 2^32` / `% 2^64` where overflow
matters.

The SHA-256 compression loop is written over `Nat`-packed words (the 8-word
state lives in one 256-bit `Nat`, the 16-word schedule window in one 512-bit
`Nat`) so that concrete hashes reduce quickly in the kernel; the FIPS 180-4
test vectors for `""` and `"abc"` are checked below.
-/

namespace PoW

/-- 32-bit mask, `2^32 - 1`. -/
def mask32 : Nat := 4294967295

/-- 480-bit mask (for sliding the schedule window). -/
def mask480 : Nat := Nat.sub (Nat.shiftLeft 1 480) 1

/-- 512-bit mask (one SHA-256 block). -/
def mask512 : Nat := Nat.sub (Nat.shiftLeft 1 512) 1

/-- Right rotation of a 32-bit word. -/
def rotr (n x : Nat) : Nat :=
  Nat.lor (Nat.shiftRight x n) (Nat.land (Nat.shiftLeft x (32 - n)) mask32)

/-- SHA-256 round constants (FIPS 180-4). -/
def sha256K : List Nat :=
  [1116352408, 1899447441, 3049323471, 3921009573, 961987163, 1508970993,
   2453635748, 2870763221, 3624381080, 310598401, 607225278, 1426881987,
   1925078388, 2162078206, 2614888103, 3248222580, 3835390401, 4022224774,
   264347078, 604807628, 770255983, 1249150122, 1555081692, 1996064986,
   2554220882, 2821834349, 2952996808, 3210313671, 3336571891, 3584528711,
   113926993, 338241895, 666307205, 773529912, 1294757372, 1396182291,
   1695183700, 1986661051, 2177026350, 2456956037, 2730485921, 2820302411,
   3259730800, 3345764771, 3516065817, 3600352804, 4094571909, 275423344,
   430227734, 506948616, 659060556, 883997877, 958139571, 1322822218,
   1537002063, 1747873779, 1955562222, 2024104815, 2227730452, 2361852424,
   2428436474, 2756734187, 3204031479, 3329325298]

/-- SHA-256 initial hash value, eight 32-bit lanes packed into one `Nat`
(lane `a = 0x6a09e667` on top). -/
def sha256H0 : Nat :=
  47962653771679561900652889051773562940742041696833059450490514104358170316057

/-- σ₀ message-schedule function. -/
def ssig0 (w : Nat) : Nat :=
  Nat.xor (Nat.xor (rotr 7 w) (rotr 18 w)) (Nat.shiftRight w 3)

/-- σ₁ message-schedule function. -/
def ssig1 (w : Nat) : Nat :=
  Nat.xor (Nat.xor (rotr 17 w) (rotr 19 w)) (Nat.shiftRight w 10)

/-- Σ₀ compression function. -/
def bsig0 (w : Nat) : Nat := Nat.xor (Nat.xor (rotr 2 w) (rotr 13 w)) (rotr 22 w)

/-- Σ₁ compression function. -/
def bsig1 (w : Nat) : Nat := Nat.xor (Nat.xor (rotr 6 w) (rotr 11 w)) (rotr 25 w)

/-- Slide the 16-word schedule window (packed, oldest word `w_t` on top) one
step: drop `w_t`, append `w_{t+16} = σ₁ w_{t+14} + w_{t+9} + σ₀ w_{t+1} + w_t`
(mod 2³²). -/
def pushW (w : Nat) : Nat :=
  Nat.add (Nat.shiftLeft (Nat.land w mask480) 32)
    (Nat.land
      (Nat.add
        (Nat.add (ssig1 (Nat.land (Nat.shiftRight w 32) mask32))
                 (Nat.land (Nat.shiftRight w 192) mask32))
        (Nat.add (ssig0 (Nat.land (Nat.shiftRight w 448) mask32))
                 (Nat.shiftRight w 480)))
      mask32)

/-- The 64 compression rounds, driven by the round-constant list; the schedule
word of the current round is the top word of the window `w`.  The eight state
lanes `a, …, h` are separate arguments; the result is the final 8-lane list. -/
def rounds8 : List Nat → Nat → Nat → Nat → Nat → Nat → Nat → Nat → Nat → Nat → List Nat
  | [], _, a, b, c, d, e, f, g, h => [a, b, c, d, e, f, g, h]
  | k :: ks, w, a, b, c, d, e, f, g, h =>
    let t1 := Nat.land
      (Nat.add (Nat.add (Nat.add h (bsig1 e))
         (Nat.add (Nat.xor (Nat.land e f) (Nat.land (Nat.xor e mask32) g)) k))
         (Nat.shiftRight w 480)) mask32
    let t2 := Nat.land
      (Nat.add (bsig0 a)
        (Nat.xor (Nat.xor (Nat.land a b) (Nat.land a c)) (Nat.land b c))) mask32
    rounds8 ks (pushW w) (Nat.land (Nat.add t1 t2) mask32) a b c
      (Nat.land (Nat.add d t1) mask32) e f g

/-- Process one 512-bit block (packed big-endian) into the packed 8-lane
state: run the 64 rounds, then add the previous state lane-wise (mod 2³²). -/
def shaBlock (block st : Nat) : Nat :=
  match rounds8 sha256K block
      (Nat.land (Nat.shiftRight st 224) mask32) (Nat.land (Nat.shiftRight st 192) mask32)
      (Nat.land (Nat.shiftRight st 160) mask32) (Nat.land (Nat.shiftRight st 128) mask32)
      (Nat.land (Nat.shiftRight st 96) mask32) (Nat.land (Nat.shiftRight st 64) mask32)
      (Nat.land (Nat.shiftRight st 32) mask32) (Nat.land st mask32) with
  | [a, b, c, d, e, f, g, h] =>
    Nat.add (Nat.shiftLeft (Nat.land (Nat.add (Nat.land (Nat.shiftRight st 224) mask32) a) mask32) 224)
    (Nat.add (Nat.shiftLeft (Nat.land (Nat.add (Nat.land (Nat.shiftRight st 192) mask32) b) mask32) 192)
    (Nat.add (Nat.shiftLeft (Nat.land (Nat.add (Nat.land (Nat.shiftRight st 160) mask32) c) mask32) 160)
    (Nat.add (Nat.shiftLeft (Nat.land (Nat.add (Nat.land (Nat.shiftRight st 128) mask32) d) mask32) 128)
    (Nat.add (Nat.shiftLeft (Nat.land (Nat.add (Nat.land (Nat.shiftRight st 96) mask32) e) mask32) 96)
    (Nat.add (Nat.shiftLeft (Nat.land (Nat.add (Nat.land (Nat.shiftRight st 64) mask32) f) mask32) 64)
    (Nat.add (Nat.shiftLeft (Nat.land (Nat.add (Nat.land (Nat.shiftRight st 32) mask32) g) mask32) 32)
             (Nat.land (Nat.add (Nat.land st mask32) h) mask32)))))))
  | _ => 0

/-- Process `n` 512-bit blocks of the packed padded message `p`, most
significant block first. -/
def shaBlocks : Nat → Nat → Nat → Nat
  | 0, _, st => st
  | k + 1, p, st =>
    shaBlocks k p (shaBlock (Nat.land (Nat.shiftRight p (Nat.mul 512 k)) mask512) st)

/-- A byte list as a big-endian `Nat`. -/
def bytesBE (l : List Nat) : Nat := l.foldl (fun a b => Nat.add (Nat.mul a 256) b) 0

/-- Big-endian byte list (of width `k`) of a `Nat`. -/
def natToBytes : Nat → Nat → List Nat
  | 0, _ => []
  | k + 1, v => Nat.mod (Nat.shiftRight v (Nat.mul 8 k)) 256 :: natToBytes k v

/-- SHA-256 of a byte sequence (the `hash` function of `hash.rs`): pad with
`0x80`, zeros and the 64-bit big-endian bit length, then compress each block. -/
def sha256 (msg : List Nat) : List Nat :=
  let l := msg.length
  let z := (64 - ((l + 9) % 64)) % 64
  let p := Nat.add (Nat.add (Nat.shiftLeft (bytesBE msg) (Nat.mul 8 (Nat.add z 9)))
                            (Nat.shiftLeft 128 (Nat.mul 8 (Nat.add z 8)))) (Nat.mul 8 l)
  natToBytes 32 (shaBlocks ((l + 9 + z) / 64) p sha256H0)

/-! ## Transactions and Merkle hashing (`tx.rs`)

`bincode`'s default configuration serializes fixed-width integers in
little-endian and `[u8; 32]` arrays as raw bytes. -/

/-- Little-endian bytes of a `u32`. -/
def u32LE (n : Nat) : List Nat :=
  [n % 256, (n >>> 8) % 256, (n >>> 16) % 256, (n >>> 24) % 256]

/-- Little-endian bytes of a `u64`. -/
def u64LE (n : Nat) : List Nat :=
  [n % 256, (n >>> 8) % 256, (n >>> 16) % 256, (n >>> 24) % 256,
   (n >>> 32) % 256, (n >>> 40) % 256, (n >>> 48) % 256, (n >>> 56) % 256]

/-- A transaction (`tx.rs`): spender and receiver are 32-byte addresses,
`amount : u32`, `timestamp : u64`. -/
structure Transaction where
  spender : List Nat
  receiver : List Nat
  amount : Nat
  timestamp : Nat
deriving DecidableEq

/-- The canonical (`bincode`) encoding of a transaction. -/
def Transaction.encode (t : Transaction) : List Nat :=
  t.spender ++ t.receiver ++ u32LE t.amount ++ u64LE t.timestamp

/-- `Transaction::hash`: SHA-256 of the bincode encoding. -/
def Transaction.hash (t : Transaction) : List Nat := sha256 t.encode

/-- `MINT_ADDRESS = [1; 32]`. -/
def MINT_ADDRESS : List Nat := List.replicate 32 1

/-- UNIX timestamp of UTC 2024/02/10 00:00:00. -/
def GENESIS_TIME : Nat := 1707519600

/-- `GENESIS_TX`: grants 100 coin to address `[1, 0, …, 0]`. -/
def GENESIS_TX : Transaction :=
  { spender := MINT_ADDRESS
    receiver := 1 :: List.replicate 31 0
    amount := 100
    timestamp := GENESIS_TIME }

/-- The compile-time Merkle constant `GENESIS_TXS_HASH` from `tx.rs`. -/
def GENESIS_TXS_HASH : List Nat :=
  [82, 124, 234, 124, 91, 88, 141, 159, 176, 214, 86, 126, 142, 46, 16, 73,
   125, 96, 127, 71, 253, 45, 55, 100, 237, 182, 18, 51, 33, 131, 181, 243]

/-- `Transactions::genesis()`. -/
def Transactions.genesis : List Transaction := [GENESIS_TX]

/-- The Merkle hash of `tx.rs` (`fn hash(txs: &[Transaction])`), with fuel for
the midpoint-split recursion; `none` models the panic on the empty sequence
(the fuel, chosen as the list length by the wrapper, never runs out on
non-empty input since both halves of a split are shorter than the whole). -/
def merkleF : Nat → List Transaction → Option (List Nat)
  | _, [tx1, tx2] => some (sha256 (tx1.hash ++ tx2.hash))
  | _, [tx] => some (sha256 (tx.hash ++ tx.hash))
  | _, [] => none
  | 0, _ => none
  | f + 1, txs =>
    match merkleF f (txs.take (txs.length / 2)), merkleF f (txs.drop (txs.length / 2)) with
    | some a, some b => some (sha256 (a ++ b))
    | _, _ => none

/-- `Transactions::hash` (`impl Hashable for Transactions`). -/
def Transactions.hash? (txs : List Transaction) : Option (List Nat) :=
  merkleF txs.length txs

/-! ## Hash predicate (`hash.rs`) -/

/-- `has_leading_zeros(s, leading)`: Rust slices `s[..leading]`, which panics
when `leading > s.len()`; `none` models that panic. -/
def has_leading_zeros? (s : List Nat) (n : Nat) : Option Bool :=
  if n ≤ s.length then some ((s.take n).all (fun b => b == 0)) else none

/-! ## Block headers, proof of work, blocks (`block.rs`) -/

/-- `BlockHeader`: `difficulty` and `nonce` are `u32`. -/
structure BlockHeader where
  prev_block_hash : List Nat
  merkle_hash : List Nat
  difficulty : Nat
  nonce : Nat
deriving DecidableEq

/-- The bincode encoding of a header (all fields in declaration order). -/
def BlockHeader.encode (h : BlockHeader) : List Nat :=
  h.prev_block_hash ++ h.merkle_hash ++ u32LE h.difficulty ++ u32LE h.nonce

/-- `BlockHeader::hash`: SHA-256 of the bincode encoding. -/
def BlockHeader.hash (h : BlockHeader) : List Nat := sha256 h.encode

/-- `GENESIS_NONCE`. -/
def GENESIS_NONCE : Nat := 437

/-- All-zero 32-byte hash (the genesis `prev_block_hash`). -/
def zeroHash : List Nat := List.replicate 32 0

/-- `GENESIS_HEADER`. -/
def GENESIS_HEADER : BlockHeader :=
  { prev_block_hash := zeroHash
    merkle_hash := GENESIS_TXS_HASH
    difficulty := 1
    nonce := GENESIS_NONCE }

/-- `BlockHeader::new`: nonce 0. -/
def BlockHeader.new (p m : List Nat) (d : Nat) : BlockHeader :=
  { prev_block_hash := p, merkle_hash := m, difficulty := d, nonce := 0 }

/-- `BlockHeader::is_valid`: the header's own hash has at least `difficulty`
leading zero bytes (`none` = panic for `difficulty > 32`). -/
def BlockHeader.is_valid? (h : BlockHeader) : Option Bool :=
  has_leading_zeros? h.hash h.difficulty

/-- The predicate tested by the closure in `BlockHeader::solve` at nonce `n`. -/
def okNonce? (h : BlockHeader) (n : Nat) : Option Bool :=
  has_leading_zeros? (BlockHeader.hash { h with nonce := n }) h.difficulty

/-- The nonce search of `BlockHeader::solve`, by fuel: `none` models both the
panic on `has_leading_zeros` and the `unwrap` panic on exhaustion. -/
def solveAux (h : BlockHeader) : Nat → Nat → Option Nat
  | 0, _ => none
  | f + 1, start =>
    match okNonce? h start with
    | some true => some start
    | some false => solveAux h f (start + 1)
    | none => none

/-- `BlockHeader::solve`: Rust iterates `0..u32::MAX`, i.e. the 4294967295
nonces `0, …, 2³² − 2` (`u32::MAX` itself is never tried). -/
def BlockHeader.solve? (h : BlockHeader) : Option Nat :=
  solveAux h 4294967295 0

/-- `BlockHeader::mine_new`. -/
def BlockHeader.mine_new? (p m : List Nat) (d : Nat) : Option BlockHeader :=
  ((BlockHeader.new p m d).solve?).map
    (fun n => { prev_block_hash := p, merkle_hash := m, difficulty := d, nonce := n })

/-- A block: header plus ordered transactions. -/
structure Block where
  header : BlockHeader
  transactions : List Transaction
deriving DecidableEq

/-- `MAX_TXS`. -/
def MAX_TXS : Nat := 100

/-- `Block::hash` is only the header's hash. -/
def Block.hash (b : Block) : List Nat := b.header.hash

/-- `Block::is_valid`: `transactions.hash() == header.merkle_hash &&
header.is_valid()`.  The Merkle hash is computed first (`none` = panic on an
empty transaction list); `&&` short-circuits, so the header check (and its
possible panic) only happens when the Merkle hashes agree. -/
def Block.is_valid? (b : Block) : Option Bool :=
  match Transactions.hash? b.transactions with
  | none => none
  | some m => if m = b.header.merkle_hash then b.header.is_valid? else some false

/-- `Block::genesis()`. -/
def Block.genesis : Block :=
  { header := GENESIS_HEADER, transactions := Transactions.genesis }

/-! ## Chain store (`chain.rs`)

The Rust `HashMap<Hash, BlockEntry>` is modelled as an association list with
distinct keys; `HashMap::insert` replaces the value in place when the key is
present, here mirrored by `ainsert`.  Iteration order of the map is never
observed by the chain-store operations. -/

/-- `BlockEntry { block, height }`. -/
structure BlockEntry where
  block : Block
  height : Nat
deriving DecidableEq

/-- `HashMap::get` on the association list. -/
def alookup : List (List Nat × BlockEntry) → List Nat → Option BlockEntry
  | [], _ => none
  | (k, v) :: rest, h => if k = h then some v else alookup rest h

/-- `HashMap::insert`: replace the value if the key is present, append
otherwise. -/
def ainsert : List (List Nat × BlockEntry) → List Nat → BlockEntry → List (List Nat × BlockEntry)
  | [], k, v => [(k, v)]
  | (k', v') :: rest, k, v =>
    if k' = k then (k, v) :: rest else (k', v') :: ainsert rest k v

/-- `BlockChain { blocks, highest_block_hash }`. -/
structure BlockChain where
  blocks : List (List Nat × BlockEntry)
  highest_block_hash : List Nat
deriving DecidableEq

/-- `BlockChain::new()`: only the genesis block, at height 0. -/
def BlockChain.new : BlockChain :=
  { blocks := [(Block.genesis.hash, { block := Block.genesis, height := 0 })]
    highest_block_hash := Block.genesis.hash }

/-- `BlockChain::highest_block_entry` (`none` models the `expect` panic when
the tip hash is not a key of the map). -/
def BlockChain.highest_block_entry? (c : BlockChain) : Option BlockEntry :=
  alookup c.blocks c.highest_block_hash

/-- `BlockChain::highest_block`. -/
def BlockChain.highest_block? (c : BlockChain) : Option Block :=
  (c.highest_block_entry?).map (fun e => e.block)

/-- `BlockChain::main_chain_length() = height(tip) + 1`. -/
def BlockChain.main_chain_length? (c : BlockChain) : Option Nat :=
  (c.highest_block_entry?).map (fun e => e.height + 1)

/-- `BlockChain::add_block`: validity check, parent lookup, tip update when
`entry.height >= main_chain_length()`, then `insert(...).is_none()` as the
return value.  `none` propagates the panics of `is_valid` and of
`main_chain_length`. -/
def BlockChain.add_block? (c : BlockChain) (b : Block) : Option (BlockChain × Bool) :=
  match b.is_valid? with
  | none => none
  | some false => some (c, false)
  | some true =>
    match alookup c.blocks b.header.prev_block_hash with
    | none => some (c, false)
    | some parent =>
      match c.main_chain_length? with
      | none => none
      | some len =>
        let entry : BlockEntry := { block := b, height := parent.height + 1 }
        let h := b.hash
        let tip := if len ≤ entry.height then h else c.highest_block_hash
        some ({ blocks := ainsert c.blocks h entry, highest_block_hash := tip },
              (alookup c.blocks h).isNone)

/-! ## Node state machine (`bin/node.rs`)

`SocketAddr` is an abstract equality type, modelled as `Nat`.  The peer
`HashSet` and the mempool `HashMap` are modelled as lists in insertion order
with distinct keys (one fixed refinement of the unordered Rust containers);
`HashSet::iter().take(9)` becomes `List.take 9`. -/

/-- The mining commands returned by `Node::handle`. -/
inductive MiningCommand where
  | Start
  | Restart
  | Keep
deriving DecidableEq

/-- The four gossip message variants. -/
inductive Message where
  | Connect (a : Nat)
  | Addr (addrs : List Nat)
  | Tx (txs : List Transaction)
  | NewBlock (b : Block)
deriving DecidableEq

/-- `HashMap::insert` for the mempool. -/
def minsert : List (List Nat × Transaction) → List Nat → Transaction →
    List (List Nat × Transaction)
  | [], k, v => [(k, v)]
  | (k', v') :: rest, k, v =>
    if k' = k then (k, v) :: rest else (k', v') :: minsert rest k v

/-- `HashMap::contains_key` for the mempool. -/
def mempoolContains (m : List (List Nat × Transaction)) (h : List Nat) : Bool :=
  m.any (fun p => p.1 == h)

/-- The full node state of `bin/node.rs`. -/
structure Node where
  address : Nat
  peers : List Nat
  mempool : List (List Nat × Transaction)
  chain : BlockChain
deriving DecidableEq

/-- `Node::add_block`: add to the chain; when newly accepted, retain only
mempool entries whose hash is not in the block. -/
def Node.add_block? (n : Node) (b : Block) : Option (Node × Bool) :=
  match n.chain.add_block? b with
  | none => none
  | some (c', is_new) =>
    if is_new then
      let txs := b.transactions.map Transaction.hash
      some ({ n with
                chain := c'
                mempool := n.mempool.filter (fun p => !(txs.contains p.1)) }, is_new)
    else
      some ({ n with chain := c' }, is_new)

/-- `Node::handle`: one state transition, returning the updated node, the
optional reply, and the mining command. -/
def Node.handle? (n : Node) : Message → Option (Node × Option Message × MiningCommand)
  | Message.Connect a =>
    if a = n.address then some (n, none, MiningCommand.Keep)
    else if a ∈ n.peers then some (n, none, MiningCommand.Keep)
    else
      let peers' := n.peers ++ [a]
      some ({ n with peers := peers' },
            some (Message.Addr (peers'.take 9 ++ [n.address])), MiningCommand.Keep)
  | Message.Addr addrs =>
    let peers' := (addrs.filter (fun a => a ≠ n.address)).foldl
      (fun ps a => if a ∈ ps then ps else ps ++ [a]) n.peers
    some ({ n with peers := peers' }, none, MiningCommand.Keep)
  | Message.Tx txs =>
    let pairs := (txs.map (fun t => (t.hash, t))).filter
      (fun p => !(mempoolContains n.mempool p.1))
    some ({ n with mempool := pairs.foldl (fun m p => minsert m p.1 p.2) n.mempool },
          if pairs.isEmpty then none else some (Message.Tx (pairs.map (fun p => p.2))),
          MiningCommand.Start)
  | Message.NewBlock b =>
    match n.add_block? b with
    | none => none
    | some (n', is_new) =>
      match n'.chain.highest_block? with
      | none => none
      | some hb =>
        some (n', if is_new then some (Message.NewBlock b) else none,
              if hb = b then MiningCommand.Restart else MiningCommand.Start)

/-! ## Chain-store invariant

The inductive invariant of `BlockChain`.  Conjuncts (1), (3), (4)+(5)
correspond to the documented invariants (a) genesis present at height 0,
(b) parents present with height parent+1, (c) the tip is an entry of maximal
height; conjuncts (2), (6), (7) are the technical strengthenings needed to
make the invariant inductive: keys are the hashes of their blocks, keys are
distinct, and no entry is keyed by the all-zero hash (the genesis parent).
Conjuncts (2) and (7) cannot be dropped: re-establishing them after an
insertion is exactly the collision-freedom of SHA-256 on the touched keys,
which the per-call side conditions below supply. -/
def ChainInv (c : BlockChain) : Prop :=
  alookup c.blocks Block.genesis.hash = some { block := Block.genesis, height := 0 } ∧
  (∀ p ∈ c.blocks, p.1 = p.2.block.hash) ∧
  (∀ p ∈ c.blocks, p.1 ≠ Block.genesis.hash →
    (alookup c.blocks p.2.block.header.prev_block_hash).map (fun e => e.height + 1) =
      some p.2.height) ∧
  (alookup c.blocks c.highest_block_hash).isSome = true ∧
  (∀ p ∈ c.blocks,
    p.2.height ≤ ((alookup c.blocks c.highest_block_hash).map (fun e => e.height)).getD 0) ∧
  (c.blocks.map Prod.fst).Nodup ∧
  alookup c.blocks zeroHash = none

instance (c : BlockChain) : Decidable (ChainInv c) := by
  unfold ChainInv
  exact inferInstance

/-- Per-call collision-freedom side condition: if `b`'s hash is already a key
of the store, the stored block has the same *header* as `b`.  A block's hash
covers only its header, so this does NOT exclude distinct blocks sharing a
header (e.g. transaction lists `[t]` and `[t, t]`, which share a Merkle
root); it only excludes two *distinct* header encodings with equal SHA-256 —
for well-formed values (32-byte hashes, `u32` fields, as the Rust types
guarantee) the fixed-width header encoding is injective, so a violation is a
genuine SHA-256 collision. -/
def headerMatches (c : BlockChain) (b : Block) : Bool :=
  ((alookup c.blocks b.hash).map (fun e => decide (e.block.header = b.header))).getD true

/-! ## Concrete fixtures

Three difficulty-0 blocks (valid without mining, since `has_leading_zeros`
with 0 is vacuous): `blockA` and `blockB` extend genesis, `blockC` extends
`blockB`. -/

/-- A concrete test transaction. -/
def txA : Transaction := ⟨List.replicate 32 2, List.replicate 32 3, 1, 1⟩

/-- A concrete test transaction. -/
def txB : Transaction := ⟨List.replicate 32 4, List.replicate 32 5, 2, 2⟩

/-- A concrete test transaction. -/
def txC : Transaction := ⟨List.replicate 32 6, List.replicate 32 7, 3, 3⟩

/-- A difficulty-0 single-transaction block on the given parent. -/
def mkBlock (prev : List Nat) (t : Transaction) : Block :=
  ⟨⟨prev, (Transactions.hash? [t]).getD [], 0, 0⟩, [t]⟩

/-- Valid block extending genesis. -/
def blockA : Block := mkBlock Block.genesis.hash txA

/-- A second valid block extending genesis (a fork at height 1). -/
def blockB : Block := mkBlock Block.genesis.hash txB

/-- Valid block extending `blockB` (height 2). -/
def blockC : Block := mkBlock blockB.hash txC

/-- The chain after accepting `blockA`. -/
def chainA : BlockChain :=
  ((BlockChain.new.add_block? blockA).getD (BlockChain.new, false)).1

/-- The chain after accepting `blockA` then `blockB`. -/
def chainAB : BlockChain :=
  ((chainA.add_block? blockB).getD (chainA, false)).1

/-- The chain after accepting `blockA`, `blockB`, then `blockC`. -/
def chainABC : BlockChain :=
  ((chainAB.add_block? blockC).getD (chainAB, false)).1

/-- A block distinct from `blockA` with `blockA`'s header: its transaction
list is `[txA, txA]`, which has the same Merkle root as `[txA]`, so it is
valid and shares `blockA`'s hash — with no SHA-256 collision anywhere. -/
def blockA2 : Block := ⟨blockA.header, [txA, txA]⟩

/-- The chain after re-offering `blockA2` to the chain that stores `blockA`:
`add_block` returns false (duplicate key) yet overwrites the stored entry. -/
def chainAdup : BlockChain :=
  ((chainA.add_block? blockA2).getD (chainA, false)).1

/-- A fresh node: address 0, no peers, empty mempool, fresh chain. -/
def node0 : Node := ⟨0, [], [], BlockChain.new⟩

/-- `noneIn h a n`: nonces `a, …, a + n − 1` all fail the difficulty check
(with the check defined, i.e. `some false`). -/
def noneIn (h : BlockHeader) : Nat → Nat → Bool
  | _, 0 => true
  | a, n + 1 => (okNonce? h a == some false) && noneIn h (a + 1) n

/-- The genesis pre-mining header: `BlockHeader::new` of the genesis parent,
genesis Merkle hash, and difficulty 1 (nonce 0). -/
def gBase : BlockHeader := BlockHeader.new zeroHash GENESIS_TXS_HASH 1

/-! ## SHA-256 test vectors (FIPS 180-4) -/

set_option maxRecDepth 1000000

theorem sha256_test_empty :
    sha256 [] =
      [227, 176, 196, 66, 152, 252, 28, 20, 154, 251, 244, 200, 153, 111, 185,
       36, 39, 174, 65, 228, 100, 155, 147, 76, 164, 149, 153, 27, 120, 82,
       184, 85] := by decide

theorem sha256_test_abc :
    sha256 [97, 98, 99] =
      [186, 120, 22, 191, 143, 1, 207, 234, 65, 65, 64, 222, 93, 174, 34, 35,
       176, 3, 97, 163, 150, 23, 122, 156, 180, 16, 255, 97, 242, 0, 21, 173] := by decide

/-! ## Association-list lemmas -/

theorem alookup_ainsert_self (m : List (List Nat × BlockEntry)) (k : List Nat)
    (v : BlockEntry) : alookup (ainsert m k v) k = some v := by
  induction m with
  | nil => simp [ainsert, alookup]
  | cons p rest ih =>
    by_cases h : p.1 = k
    · simp [ainsert, h, alookup]
    · simp [ainsert, h, alookup, ih]

theorem alookup_ainsert_ne (m : List (List Nat × BlockEntry)) (k k' : List Nat)
    (v : BlockEntry) (h : k' ≠ k) :
    alookup (ainsert m k v) k' = alookup m k' := by
  induction m with
  | nil =>
    simp only [ainsert, alookup]
    rw [if_neg (Ne.symm h)]
  | cons p rest ih =>
    by_cases hp : p.1 = k
    · obtain ⟨k₁, v₁⟩ := p
      simp only at hp
      subst hp
      simp only [ainsert, if_pos rfl, alookup]
      rw [if_neg (Ne.symm h), if_neg (Ne.symm h)]
    · simp only [ainsert, if_neg hp, alookup]
      by_cases hk : p.1 = k'
      · rw [if_pos hk, if_pos hk]
      · rw [if_neg hk, if_neg hk, ih]

theorem ainsert_of_lookup_some (m : List (List Nat × BlockEntry)) (k : List Nat)
    (v : BlockEntry) (h : alookup m k = some v) : ainsert m k v = m := by
  induction m with
  | nil => simp [alookup] at h
  | cons p rest ih =>
    by_cases hp : p.1 = k
    · obtain ⟨k₁, v₁⟩ := p
      simp only at hp
      subst hp
      simp [alookup] at h
      simp [ainsert, h]
    · simp only [alookup, if_neg hp] at h
      simp [ainsert, hp, ih h]

theorem ainsert_of_lookup_none (m : List (List Nat × BlockEntry)) (k : List Nat)
    (v : BlockEntry) (h : alookup m k = none) : ainsert m k v = m ++ [(k, v)] := by
  induction m with
  | nil => simp [ainsert]
  | cons p rest ih =>
    by_cases hp : p.1 = k
    · simp [alookup, hp] at h
    · simp only [alookup, if_neg hp] at h
      simp [ainsert, hp, ih h]

theorem alookup_append_left (m₁ m₂ : List (List Nat × BlockEntry)) (k : List Nat)
    (v : BlockEntry) (h : alookup m₁ k = some v) :
    alookup (m₁ ++ m₂) k = some v := by
  induction m₁ with
  | nil => simp [alookup] at h
  | cons p rest ih =>
    by_cases hp : p.1 = k
    · simp_all [alookup]
    · simp only [alookup, if_neg hp] at h
      simpa [alookup, hp] using ih h

theorem alookup_append_right (m₁ m₂ : List (List Nat × BlockEntry)) (k : List Nat)
    (h : alookup m₁ k = none) :
    alookup (m₁ ++ m₂) k = alookup m₂ k := by
  induction m₁ with
  | nil => simp
  | cons p rest ih =>
    by_cases hp : p.1 = k
    · simp [alookup, hp] at h
    · simp only [alookup, if_neg hp] at h
      simpa [alookup, hp] using ih h

theorem alookup_none_of_not_key (m : List (List Nat × BlockEntry)) (k : List Nat)
    (h : k ∉ m.map Prod.fst) : alookup m k = none := by
  induction m with
  | nil => rfl
  | cons p rest ih =>
    simp only [List.map_cons, List.mem_cons, not_or] at h
    have hne : ¬(p.1 = k) := fun he => h.1 he.symm
    rw [alookup, if_neg hne]
    exact ih h.2

theorem not_key_of_alookup_none (m : List (List Nat × BlockEntry)) (k : List Nat)
    (h : alookup m k = none) : k ∉ m.map Prod.fst := by
  induction m with
  | nil => simp
  | cons p rest ih =>
    by_cases hp : p.1 = k
    · rw [alookup, if_pos hp] at h
      exact absurd h (by simp)
    · rw [alookup, if_neg hp] at h
      simp only [List.map_cons, List.mem_cons, not_or]
      exact ⟨fun he => hp he.symm, ih h⟩

theorem mem_ainsert (m : List (List Nat × BlockEntry)) (k : List Nat)
    (v : BlockEntry) (p : List Nat × BlockEntry) (h : p ∈ ainsert m k v) :
    p = (k, v) ∨ p ∈ m := by
  induction m with
  | nil => simpa [ainsert] using h
  | cons q rest ih =>
    by_cases hq : q.1 = k
    · simp only [ainsert, if_pos hq] at h
      rcases List.mem_cons.mp h with h1 | h1
      · exact Or.inl h1
      · exact Or.inr (List.mem_cons_of_mem _ h1)
    · simp only [ainsert, if_neg hq] at h
      rcases List.mem_cons.mp h with h1 | h1
      · exact Or.inr (h1 ▸ List.mem_cons_self _ _)
      · rcases ih h1 with h2 | h2
        · exact Or.inl h2
        · exact Or.inr (List.mem_cons_of_mem _ h2)

theorem ainsert_map_fst_of_some (m : List (List Nat × BlockEntry)) (k : List Nat)
    (v : BlockEntry) (h : (alookup m k).isSome = true) :
    (ainsert m k v).map Prod.fst = m.map Prod.fst := by
  induction m with
  | nil => simp [alookup] at h
  | cons q rest ih =>
    by_cases hq : q.1 = k
    · simp [ainsert, if_pos hq, hq]
    · rw [alookup, if_neg hq] at h
      simp [ainsert, if_neg hq, ih h]

theorem mem_of_alookup_some (m : List (List Nat × BlockEntry)) (k : List Nat)
    (v : BlockEntry) (h : alookup m k = some v) : (k, v) ∈ m := by
  induction m with
  | nil => simp [alookup] at h
  | cons p rest ih =>
    by_cases hp : p.1 = k
    · obtain ⟨k₁, v₁⟩ := p
      simp only at hp
      subst hp
      simp [alookup] at h
      simp [h]
    · simp only [alookup, if_neg hp] at h
      exact List.mem_cons_of_mem _ (ih h)

/-! ## The main `add_block` lemma

Everything the chain-store claims need, proved once: under the invariant,
header-level collision-freedom, and definedness of the block's own validity
check, `add_block` returns, accepts exactly the valid, parent-known,
not-yet-present blocks, never moves the tip when it rejects, leaves the map
untouched on rejection unless a distinct same-hash block is re-offered — in
which case the stored entry is overwritten in place with `b` at the stored
height — and preserves the invariant. -/

theorem addBlock_main (c : BlockChain) (b : Block)
    (hinv : ChainInv c) (hhm : headerMatches c b = true)
    (hb : (b.is_valid?).isSome = true) :
    ∃ c' r, c.add_block? b = some (c', r) ∧
      (r = true ↔ (b.is_valid? = some true ∧
        (alookup c.blocks b.header.prev_block_hash).isSome = true ∧
        alookup c.blocks b.hash = none)) ∧
      (r = false → c'.highest_block_hash = c.highest_block_hash) ∧
      (r = false → (∀ e0, alookup c.blocks b.hash = some e0 → e0.block = b) → c' = c) ∧
      (∀ e0, b.is_valid? = some true →
        (alookup c.blocks b.header.prev_block_hash).isSome = true →
        alookup c.blocks b.hash = some e0 →
        c'.blocks = ainsert c.blocks b.hash { block := b, height := e0.height }) ∧
      (b.hash ≠ zeroHash → ChainInv c') := by
  obtain ⟨hg, hkeys, hpar, htip, hmax, hnodup, hzero⟩ := hinv
  cases hv : b.is_valid? with
  | none => rw [hv] at hb; simp at hb
  | some val =>
    cases val with
    | false =>
      refine ⟨c, false, ?_, ?_, fun _ => rfl, fun _ _ => rfl, ?_, fun _ => ?_⟩
      · simp [BlockChain.add_block?, hv]
      · simp [hv]
      · intro e0 hvt _ _
        exact absurd hvt (by simp)
      · exact ⟨hg, hkeys, hpar, htip, hmax, hnodup, hzero⟩
    | true =>
      cases hp : alookup c.blocks b.header.prev_block_hash with
      | none =>
        refine ⟨c, false, ?_, ?_, fun _ => rfl, fun _ _ => rfl, ?_, fun _ => ?_⟩
        · simp [BlockChain.add_block?, hv, hp]
        · simp [hp]
        · intro e0 _ hps _
          simp at hps
        · exact ⟨hg, hkeys, hpar, htip, hmax, hnodup, hzero⟩
      | some parent =>
        obtain ⟨te, hte⟩ : ∃ te, alookup c.blocks c.highest_block_hash = some te := by
          cases hx : alookup c.blocks c.highest_block_hash with
          | none => rw [hx] at htip; simp at htip
          | some te => exact ⟨te, rfl⟩
        have hlen : c.main_chain_length? = some (te.height + 1) := by
          simp [BlockChain.main_chain_length?, BlockChain.highest_block_entry?, hte]
        cases hd : alookup c.blocks b.hash with
        | some e0 =>
          -- duplicate key: the insert overwrites the stored entry in place
          have hhead : e0.block.header = b.header := by
            unfold headerMatches at hhm
            rw [hd] at hhm
            simpa using hhm
          have hmem : (b.hash, e0) ∈ c.blocks := mem_of_alookup_some _ _ _ hd
          by_cases hgen : b.hash = Block.genesis.hash
          · -- the stored entry is genesis, so b carries the genesis header,
            -- whose parent is the all-zero hash, absent from the store
            rw [hgen, hg] at hd
            injection hd with hd0
            have hph : b.header.prev_block_hash = zeroHash := by
              rw [← hhead, ← hd0]
              rfl
            rw [hph, hzero] at hp
            exact absurd hp (by simp)
          · have h3 := hpar (b.hash, e0) hmem hgen
            rw [hhead, hp] at h3
            simp only [Option.map_some', Option.some.injEq] at h3
            have hh : e0.height ≤ te.height := by
              have := hmax (b.hash, e0) hmem
              rw [hte] at this
              simpa using this
            have hnot : ¬ (te.height + 1 ≤ parent.height + 1) := by omega
            refine ⟨⟨ainsert c.blocks b.hash { block := b, height := parent.height + 1 },
                     c.highest_block_hash⟩, false, ?_, ?_, fun _ => rfl, ?_, ?_, fun _ => ?_⟩
            · simp only [BlockChain.add_block?, hv, hp, hlen, hd]
              rw [if_neg hnot]
              simp
            · simp [hd]
            · -- re-adding the identical stored block changes nothing
              intro _ hall
              have heb : e0.block = b := hall e0 rfl
              have hee : ({ block := b, height := parent.height + 1 } : BlockEntry) = e0 := by
                cases e0 with
                | mk blk ht =>
                  simp only at heb h3
                  rw [heb, h3]
              show (⟨ainsert c.blocks b.hash { block := b, height := parent.height + 1 },
                     c.highest_block_hash⟩ : BlockChain) = c
              rw [hee, ainsert_of_lookup_some _ _ _ hd]
            · -- the overwrite formula, at the stored height
              intro e0' _ _ hd'
              injection hd' with he
              subst he
              show ainsert c.blocks b.hash { block := b, height := parent.height + 1 } =
                ainsert c.blocks b.hash { block := b, height := e0.height }
              rw [h3]
            · -- the invariant survives the in-place overwrite
              have hbz : ¬(zeroHash = b.hash) := by
                intro he
                rw [he, hd] at hzero
                exact absurd hzero (by simp)
              have hkne : ∀ x, x ≠ b.hash →
                  alookup (ainsert c.blocks b.hash { block := b, height := parent.height + 1 }) x =
                    alookup c.blocks x :=
                fun x hx => alookup_ainsert_ne _ _ _ _ hx
              have hself :
                  alookup (ainsert c.blocks b.hash { block := b, height := parent.height + 1 })
                    b.hash = some { block := b, height := parent.height + 1 } :=
                alookup_ainsert_self _ _ _
              have hgne : ¬(Block.genesis.hash = b.hash) := fun he => hgen he.symm
              have hview1 : ∀ x,
                  (alookup (ainsert c.blocks b.hash { block := b, height := parent.height + 1 }) x).map
                      (fun e => e.height + 1) =
                    (alookup c.blocks x).map (fun e => e.height + 1) := by
                intro x
                by_cases hx : x = b.hash
                · rw [hx, hself, hd]
                  simp [h3]
                · rw [hkne x hx]
              have hview0 : ∀ x,
                  (alookup (ainsert c.blocks b.hash { block := b, height := parent.height + 1 }) x).map
                      (fun e => e.height) =
                    (alookup c.blocks x).map (fun e => e.height) := by
                intro x
                by_cases hx : x = b.hash
                · rw [hx, hself, hd]
                  simp [h3]
                · rw [hkne x hx]
              refine ⟨?_, ?_, ?_, ?_, ?_, ?_, ?_⟩
              · rw [hkne _ hgne]
                exact hg
              · intro p hpm
                rcases mem_ainsert _ _ _ _ hpm with h1 | h1
                · subst h1
                  rfl
                · exact hkeys p h1
              · intro p hpm hneq
                rcases mem_ainsert _ _ _ _ hpm with h1 | h1
                · subst h1
                  rw [hview1, hp]
                  rfl
                · rw [hview1]
                  exact hpar p h1 hneq
              · by_cases ht : c.highest_block_hash = b.hash
                · rw [ht, hself]
                  rfl
                · rw [hkne _ ht, hte]
                  rfl
              · intro p hpm
                have htv :
                    ((alookup (ainsert c.blocks b.hash
                        { block := b, height := parent.height + 1 })
                      c.highest_block_hash).map (fun e => e.height)).getD 0 = te.height := by
                  rw [hview0, hte]
                  rfl
                rw [htv]
                rcases mem_ainsert _ _ _ _ hpm with h1 | h1
                · subst h1
                  simp only
                  omega
                · have h1' := hmax p h1
                  rw [hte] at h1'
                  simpa using h1'
              · rw [ainsert_map_fst_of_some _ _ _ (by rw [hd]; rfl)]
                exact hnodup
              · rw [hkne _ hbz]
                exact hzero
        | none =>
          -- fresh insertion
          have hains : ainsert c.blocks b.hash { block := b, height := parent.height + 1 } =
              c.blocks ++ [(b.hash, { block := b, height := parent.height + 1 })] :=
            ainsert_of_lookup_none _ _ _ hd
          have hnewk : b.hash ∉ c.blocks.map Prod.fst := not_key_of_alookup_none _ _ hd
          have hgne : b.hash ≠ Block.genesis.hash := by
            intro he
            rw [he, hg] at hd
            exact absurd hd (by simp)
          have lookA : ∀ x v, alookup c.blocks x = some v →
              alookup (c.blocks ++ [(b.hash, { block := b, height := parent.height + 1 })]) x =
                some v :=
            fun x v hx => alookup_append_left _ _ _ _ hx
          have lookNew :
              alookup (c.blocks ++ [(b.hash, { block := b, height := parent.height + 1 })])
                b.hash = some { block := b, height := parent.height + 1 } := by
            rw [alookup_append_right _ _ _ hd]
            simp [alookup]
          refine ⟨⟨c.blocks ++ [(b.hash, { block := b, height := parent.height + 1 })],
                   if te.height + 1 ≤ parent.height + 1 then b.hash
                   else c.highest_block_hash⟩, true, ?_, ?_, ?_, ?_, ?_, ?_⟩
          · simp only [BlockChain.add_block?, hv, hp, hlen, hd]
            rw [hains]
            simp
          · simp [hv, hp, hd]
          · intro hfalse
            exact absurd hfalse (by simp)
          · intro hfalse _
            exact absurd hfalse (by simp)
          · intro e0 _ _ hd'
            exact absurd hd' (by simp)
          · intro hz
            refine ⟨lookA _ _ hg, ?_, ?_, ?_, ?_, ?_, ?_⟩
            · -- keys are hashes
              intro p hmem
              rcases List.mem_append.mp hmem with hold | hnew
              · exact hkeys p hold
              · simp only [List.mem_singleton] at hnew
                subst hnew
                rfl
            · -- heights are parent height + 1
              intro p hmem hneq
              rcases List.mem_append.mp hmem with hold | hnew
              · have h0 := hpar p hold hneq
                obtain ⟨pe, hpe, hh⟩ := Option.map_eq_some'.mp h0
                rw [lookA _ _ hpe]
                simp [hh]
              · simp only [List.mem_singleton] at hnew
                subst hnew
                simp only
                rw [lookA _ _ hp]
                rfl
            · -- the tip is present
              by_cases hc : te.height + 1 ≤ parent.height + 1
              · simp only [if_pos hc, lookNew, Option.isSome_some]
              · simp only [if_neg hc, lookA _ _ hte, Option.isSome_some]
            · -- every height is at most the tip height
              intro p hmem
              by_cases hc : te.height + 1 ≤ parent.height + 1
              · simp only [if_pos hc, lookNew, Option.map_some', Option.getD_some]
                rcases List.mem_append.mp hmem with hold | hnew
                · have h1 := hmax p hold
                  rw [hte] at h1
                  simp only [Option.map_some', Option.getD_some] at h1
                  omega
                · simp only [List.mem_singleton] at hnew
                  subst hnew
                  simp
              · simp only [if_neg hc, lookA _ _ hte, Option.map_some', Option.getD_some]
                rcases List.mem_append.mp hmem with hold | hnew
                · have h1 := hmax p hold
                  rw [hte] at h1
                  simpa using h1
                · simp only [List.mem_singleton] at hnew
                  subst hnew
                  simp only
                  omega
            · -- keys stay distinct
              rw [List.map_append]
              rw [List.nodup_append]
              refine ⟨hnodup, by simp, ?_⟩
              intro a ha hb'
              simp only [List.map_cons, List.map_nil, List.mem_singleton] at hb'
              subst hb'
              exact hnewk ha
            · -- the all-zero hash stays absent
              rw [alookup_append_right _ _ _ hzero]
              simp only [alookup]
              rw [if_neg hz]

/-- A block whose height would merely tie the current tip height (or less)
never displaces the tip, whatever else `add_block` does. -/
theorem addBlock_tie (c : BlockChain) (b : Block) (c' : BlockChain) (r : Bool)
    (pe te : BlockEntry)
    (hadd : c.add_block? b = some (c', r))
    (hp : alookup c.blocks b.header.prev_block_hash = some pe)
    (hte : c.highest_block_entry? = some te)
    (heq : pe.height + 1 ≤ te.height) :
    c'.highest_block_hash = c.highest_block_hash := by
  have hlen : c.main_chain_length? = some (te.height + 1) := by
    simp [BlockChain.main_chain_length?, hte]
  cases hv : b.is_valid? with
  | none => simp [BlockChain.add_block?, hv] at hadd
  | some val =>
    cases val with
    | false =>
      simp only [BlockChain.add_block?, hv, Option.some.injEq, Prod.mk.injEq] at hadd
      rw [← hadd.1]
    | true =>
      have hnot : ¬ (te.height + 1 ≤ pe.height + 1) := by omega
      simp only [BlockChain.add_block?, hv, hp, hlen] at hadd
      rw [if_neg hnot] at hadd
      simp only [Option.some.injEq, Prod.mk.injEq] at hadd
      rw [← hadd.1]

/-! ## The nonce search -/

theorem noneIn_ok (h : BlockHeader) (n : Nat) :
    ∀ a, noneIn h a n = true →
    ∀ m, a ≤ m → m < a + n → okNonce? h m = some false := by
  induction n with
  | zero => intro a _ m h1 h2; omega
  | succ k ih =>
    intro a hn m h1 h2
    simp only [noneIn, Bool.and_eq_true, beq_iff_eq] at hn
    by_cases hma : m = a
    · rw [hma]; exact hn.1
    · exact ih (a + 1) hn.2 m (by omega) (by omega)

/-- The search returns the first passing nonce: if everything in `[a, n)`
fails, `n` passes, and there is enough fuel, `solveAux` from `a` finds `n`. -/
theorem solveAux_from (h : BlockHeader) (n : Nat) (hok : okNonce? h n = some true) :
    ∀ f a, a ≤ n → n - a < f →
    (∀ m, a ≤ m → m < n → okNonce? h m = some false) →
    solveAux h f a = some n := by
  intro f
  induction f with
  | zero => intro a h1 h2 _; omega
  | succ k ih =>
    intro a h1 h2 hlow
    by_cases ha : a = n
    · subst ha
      simp [solveAux, hok]
    · have hfa : okNonce? h a = some false := hlow a (Nat.le_refl _) (by omega)
      simp only [solveAux, hfa]
      exact ih (a + 1) (by omega) (by omega) (fun m hm1 hm2 => hlow m (by omega) hm2)

/-- The search never skips a passing nonce: whatever `solveAux` returns, every
smaller nonce (from the start) fails. -/
theorem solveAux_least (h : BlockHeader) :
    ∀ f a n, solveAux h f a = some n →
    a ≤ n ∧ okNonce? h n = some true ∧
      (∀ m, a ≤ m → m < n → okNonce? h m = some false) := by
  intro f
  induction f with
  | zero => intro a n hs; simp [solveAux] at hs
  | succ k ih =>
    intro a n hs
    cases hoa : okNonce? h a with
    | none => simp [solveAux, hoa] at hs
    | some v =>
      cases v with
      | true =>
        simp only [solveAux, hoa, Option.some.injEq] at hs
        subst hs
        exact ⟨Nat.le_refl _, hoa, fun m hm1 hm2 => by omega⟩
      | false =>
        simp only [solveAux, hoa] at hs
        obtain ⟨h1, h2, h3⟩ := ih (a + 1) n hs
        refine ⟨by omega, h2, fun m hm1 hm2 => ?_⟩
        by_cases hma : m = a
        · rw [hma]; exact hoa
        · exact h3 m (by omega) hm2

/-- Soundness of `BlockHeader::mine_new` (the `0..u32::MAX` search): whenever
it returns a header, that header carries the given fields, is valid, and its
nonce is the least nonce satisfying the difficulty predicate — hence also the
least in all of `[0, 2³²)`. -/
theorem mine_new_sound (p m : List Nat) (d : Nat) (h : BlockHeader)
    (hm : BlockHeader.mine_new? p m d = some h) :
    h.prev_block_hash = p ∧ h.merkle_hash = m ∧ h.difficulty = d ∧
    h.is_valid? = some true ∧
    (∀ k, k < h.nonce → okNonce? (BlockHeader.new p m d) k = some false) := by
  unfold BlockHeader.mine_new? BlockHeader.solve? at hm
  cases hs : solveAux (BlockHeader.new p m d) 4294967295 0 with
  | none => rw [hs] at hm; simp at hm
  | some nn =>
    rw [hs] at hm
    simp only [Option.map_some', Option.some.injEq] at hm
    obtain ⟨_, hok, hlow⟩ := solveAux_least _ _ _ _ hs
    subst hm
    exact ⟨rfl, rfl, rfl, hok, fun k hk => hlow k (Nat.zero_le _) hk⟩

theorem gchunk0 : noneIn gBase 0 25 = true := by decide!

theorem gchunk1 : noneIn gBase 25 25 = true := by decide!

theorem gchunk2 : noneIn gBase 50 25 = true := by decide!

theorem gchunk3 : noneIn gBase 75 25 = true := by decide!

theorem gchunk4 : noneIn gBase 100 25 = true := by decide!

theorem gchunk5 : noneIn gBase 125 25 = true := by decide!

theorem gchunk6 : noneIn gBase 150 25 = true := by decide!

theorem gchunk7 : noneIn gBase 175 25 = true := by decide!

theorem gchunk8 : noneIn gBase 200 25 = true := by decide!

theorem gchunk9 : noneIn gBase 225 25 = true := by decide!

theorem gchunk10 : noneIn gBase 250 25 = true := by decide!

theorem gchunk11 : noneIn gBase 275 25 = true := by decide!

theorem gchunk12 : noneIn gBase 300 25 = true := by decide!

theorem gchunk13 : noneIn gBase 325 25 = true := by decide!

theorem gchunk14 : noneIn gBase 350 25 = true := by decide!

theorem gchunk15 : noneIn gBase 375 25 = true := by decide!

theorem gchunk16 : noneIn gBase 400 25 = true := by decide!

theorem gchunk17 : noneIn gBase 425 12 = true := by decide!

/-- Every nonce below 437 fails the genesis difficulty check. -/
theorem genesis_low_nonces : ∀ m, m < 437 → okNonce? gBase m = some false := by
  intro m hm
  rcases Nat.lt_or_ge m 25 with h | h
  · exact noneIn_ok gBase 25 0 gchunk0 m (by omega) (by omega)
  rcases Nat.lt_or_ge m 50 with h2 | h2
  · exact noneIn_ok gBase 25 25 gchunk1 m (by omega) (by omega)
  rcases Nat.lt_or_ge m 75 with h3 | h3
  · exact noneIn_ok gBase 25 50 gchunk2 m (by omega) (by omega)
  rcases Nat.lt_or_ge m 100 with h4 | h4
  · exact noneIn_ok gBase 25 75 gchunk3 m (by omega) (by omega)
  rcases Nat.lt_or_ge m 125 with h5 | h5
  · exact noneIn_ok gBase 25 100 gchunk4 m (by omega) (by omega)
  rcases Nat.lt_or_ge m 150 with h6 | h6
  · exact noneIn_ok gBase 25 125 gchunk5 m (by omega) (by omega)
  rcases Nat.lt_or_ge m 175 with h7 | h7
  · exact noneIn_ok gBase 25 150 gchunk6 m (by omega) (by omega)
  rcases Nat.lt_or_ge m 200 with h8 | h8
  · exact noneIn_ok gBase 25 175 gchunk7 m (by omega) (by omega)
  rcases Nat.lt_or_ge m 225 with h9 | h9
  · exact noneIn_ok gBase 25 200 gchunk8 m (by omega) (by omega)
  rcases Nat.lt_or_ge m 250 with h10 | h10
  · exact noneIn_ok gBase 25 225 gchunk9 m (by omega) (by omega)
  rcases Nat.lt_or_ge m 275 with h11 | h11
  · exact noneIn_ok gBase 25 250 gchunk10 m (by omega) (by omega)
  rcases Nat.lt_or_ge m 300 with h12 | h12
  · exact noneIn_ok gBase 25 275 gchunk11 m (by omega) (by omega)
  rcases Nat.lt_or_ge m 325 with h13 | h13
  · exact noneIn_ok gBase 25 300 gchunk12 m (by omega) (by omega)
  rcases Nat.lt_or_ge m 350 with h14 | h14
  · exact noneIn_ok gBase 25 325 gchunk13 m (by omega) (by omega)
  rcases Nat.lt_or_ge m 375 with h15 | h15
  · exact noneIn_ok gBase 25 350 gchunk14 m (by omega) (by omega)
  rcases Nat.lt_or_ge m 400 with h16 | h16
  · exact noneIn_ok gBase 25 375 gchunk15 m (by omega) (by omega)
  rcases Nat.lt_or_ge m 425 with h17 | h17
  · exact noneIn_ok gBase 25 400 gchunk16 m (by omega) (by omega)
  exact noneIn_ok gBase 12 425 gchunk17 m (by omega) (by omega)

/-- Nonce 437 passes the genesis difficulty check. -/
theorem genesis_ok_437 : okNonce? gBase 437 = some true := by decide!

/-- The genesis nonce search finds exactly 437. -/
theorem genesis_solve : BlockHeader.solve? gBase = some 437 :=
  solveAux_from gBase 437 genesis_ok_437 4294967295 0 (by omega) (by omega)
    (fun m _ hm2 => genesis_low_nonces m hm2)

theorem mine_new_sound_witness :
    BlockHeader.mine_new? zeroHash GENESIS_TXS_HASH 1 = some ⟨zeroHash, GENESIS_TXS_HASH, 1, 437⟩ ∧
    ((⟨zeroHash, GENESIS_TXS_HASH, 1, 437⟩ : BlockHeader).prev_block_hash = zeroHash ∧
     (⟨zeroHash, GENESIS_TXS_HASH, 1, 437⟩ : BlockHeader).merkle_hash = GENESIS_TXS_HASH ∧
     (⟨zeroHash, GENESIS_TXS_HASH, 1, 437⟩ : BlockHeader).difficulty = 1 ∧
     (⟨zeroHash, GENESIS_TXS_HASH, 1, 437⟩ : BlockHeader).is_valid? = some true ∧
     (∀ k, k < (⟨zeroHash, GENESIS_TXS_HASH, 1, 437⟩ : BlockHeader).nonce →
        okNonce? (BlockHeader.new zeroHash GENESIS_TXS_HASH 1) k = some false)) := by
  have hm : BlockHeader.mine_new? zeroHash GENESIS_TXS_HASH 1 =
      some ⟨zeroHash, GENESIS_TXS_HASH, 1, 437⟩ := by
    unfold BlockHeader.mine_new? BlockHeader.solve?
    rw [show solveAux (BlockHeader.new zeroHash GENESIS_TXS_HASH 1) 4294967295 0 =
          some 437 from genesis_solve]
    rfl
  exact ⟨hm, mine_new_sound zeroHash GENESIS_TXS_HASH 1 _ hm⟩


/-! ## Mempool lemmas -/

theorem contains_hash_of_mem (l : List Transaction) (t : Transaction) (ht : t ∈ l) :
    (l.map Transaction.hash).contains t.hash = true := by
  induction l with
  | nil => simp at ht
  | cons x rest ih =>
    rcases List.mem_cons.mp ht with h | h
    · subst h
      simp [List.contains_cons]
    · simp only [List.map_cons, List.contains_cons, ih h, Bool.or_true]

theorem mempoolContains_filter (txs : List (List Nat)) (h : List Nat)
    (hh : txs.contains h = true) :
    ∀ m : List (List Nat × Transaction),
      mempoolContains (m.filter (fun p => !(txs.contains p.1))) h = false := by
  intro m
  induction m with
  | nil => rfl
  | cons p rest ih =>
    by_cases hc : p.1 ∈ txs
    · simpa [List.filter_cons, hc] using ih
    · simp only [List.filter_cons]
      rw [if_pos (by simp [hc])]
      simp only [mempoolContains, List.any_cons, Bool.or_eq_false_iff]
      refine ⟨?_, by simpa [mempoolContains] using ih⟩
      cases hb : p.1 == h with
      | false => rfl
      | true =>
        have hph : p.1 = h := by simpa using hb
        have hmem : h ∈ txs := by simpa using hh
        rw [← hph] at hmem
        exact absurd hmem hc

/-! ## The `has_leading_zeros` prefix characterisation -/

theorem take_all_zero (l : List Nat) : ∀ n, n ≤ l.length →
    (((l.take n).all (fun b => b == 0)) = true ↔ ∀ i, i < n → l.getD i 1 = 0) := by
  induction l with
  | nil =>
    intro n hn
    have : n = 0 := by simpa using hn
    subst this
    simp
  | cons x rest ih =>
    intro n hn
    cases n with
    | zero => simp
    | succ k =>
      simp only [List.take_succ_cons, List.all_cons, Bool.and_eq_true, beq_iff_eq]
      rw [ih k (by simpa using hn)]
      constructor
      · rintro ⟨hx, hr⟩ i hi
        cases i with
        | zero => simpa using hx
        | succ j => simpa using hr j (by omega)
      · intro hall
        exact ⟨by simpa using hall 0 (by omega),
               fun j hj => by simpa using hall (j + 1) (by omega)⟩

/-! ## The claims -/

/-- C9: for a 32-byte hash `h` and `0 ≤ n ≤ 32`, `has_leading_zeros(h, n)` is
defined and returns true iff the first `n` bytes of `h` are all zero; in
particular `n = 0` always returns true.  (`n > 32` panics in Rust — modelled
as `none` — and is excluded by the claim's precondition.) -/
theorem c9_has_leading_zeros (s : List Nat) (n : Nat)
    (hs : s.length = 32) (hn : n ≤ 32) :
    (has_leading_zeros? s n = some true ↔ ∀ i, i < n → s.getD i 1 = 0) ∧
    has_leading_zeros? s 0 = some true := by
  have hns : n ≤ s.length := by rw [hs]; exact hn
  constructor
  · unfold has_leading_zeros?
    rw [if_pos hns]
    simp only [Option.some.injEq]
    exact take_all_zero s n hns
  · simp [has_leading_zeros?]

theorem c9_witness :
    (List.replicate 32 0 : List Nat).length = 32 ∧ 2 ≤ 32 ∧
    ((has_leading_zeros? (List.replicate 32 0) 2 = some true ↔
        ∀ i, i < 2 → (List.replicate 32 0 : List Nat).getD i 1 = 0) ∧
      has_leading_zeros? (List.replicate 32 0) 0 = some true) :=
  ⟨by decide, by decide, c9_has_leading_zeros (List.replicate 32 0) 2 (by decide) (by decide)⟩

/-- C2 counterexample: on the invariant-satisfying chain storing `blockA`,
re-offering the *distinct* block `blockA2` — same header, transaction list
`[txA, txA]` with the same Merkle root as `[txA]`, so valid and with the same
hash, no SHA-256 collision anywhere — makes `add_block` return false while
observably changing the map: the stored entry's block is overwritten.  This
refutes "in every case where it returns false, the map of entries and the
tip hash are observably unchanged". -/
theorem c2_counterexample :
    blockA2 ≠ blockA ∧
    blockA2.hash = blockA.hash ∧
    blockA2.is_valid? = some true ∧
    ChainInv chainA ∧
    chainA.add_block? blockA2 = some (chainAdup, false) ∧
    chainAdup ≠ chainA := by
  refine ⟨by decide!, rfl, by decide!, by decide!, by decide!, by decide!⟩

/-- C2 (amended): under the chain invariant, header-level SHA-256
collision-freedom, and definedness of `b.is_valid()` (the Rust check panics
on an empty transaction list or difficulty > 32): `add_block` returns true
iff `b` is valid, its parent is a key of the store, and its own hash is not;
whenever it returns false the tip hash is unchanged, and the map is unchanged
too — except that re-offering a valid, parent-known block whose hash is
already a key overwrites the stored entry in place with `b` at the stored
height, so the map only survives a rejection untouched when the stored block
at `b`'s hash (if any) is `b` itself.  In particular, re-adding an
already-present block returns false and changes nothing. -/
theorem c2_add_block (c : BlockChain) (b : Block)
    (hinv : ChainInv c) (hhm : headerMatches c b = true)
    (hb : (b.is_valid?).isSome = true) :
    ∃ c' r, c.add_block? b = some (c', r) ∧
      (r = true ↔ (b.is_valid? = some true ∧
        (alookup c.blocks b.header.prev_block_hash).isSome = true ∧
        alookup c.blocks b.hash = none)) ∧
      (r = false → c'.highest_block_hash = c.highest_block_hash) ∧
      (r = false → (∀ e0, alookup c.blocks b.hash = some e0 → e0.block = b) → c' = c) ∧
      (∀ e0, b.is_valid? = some true →
        (alookup c.blocks b.header.prev_block_hash).isSome = true →
        alookup c.blocks b.hash = some e0 →
        c'.blocks = ainsert c.blocks b.hash { block := b, height := e0.height }) := by
  obtain ⟨c', r, h1, h2, h3, h4, h5, _⟩ := addBlock_main c b hinv hhm hb
  exact ⟨c', r, h1, h2, h3, h4, h5⟩

theorem c2_witness :
    ChainInv BlockChain.new ∧ headerMatches BlockChain.new blockA = true ∧
    (blockA.is_valid?).isSome = true ∧
    (∃ c' r, BlockChain.new.add_block? blockA = some (c', r) ∧
      (r = true ↔ (blockA.is_valid? = some true ∧
        (alookup BlockChain.new.blocks blockA.header.prev_block_hash).isSome = true ∧
        alookup BlockChain.new.blocks blockA.hash = none)) ∧
      (r = false → c'.highest_block_hash = BlockChain.new.highest_block_hash) ∧
      (r = false →
        (∀ e0, alookup BlockChain.new.blocks blockA.hash = some e0 → e0.block = blockA) →
        c' = BlockChain.new) ∧
      (∀ e0, blockA.is_valid? = some true →
        (alookup BlockChain.new.blocks blockA.header.prev_block_hash).isSome = true →
        alookup BlockChain.new.blocks blockA.hash = some e0 →
        c'.blocks = ainsert BlockChain.new.blocks blockA.hash
          { block := blockA, height := e0.height })) :=
  ⟨by decide!, by decide!, by decide!,
   c2_add_block BlockChain.new blockA (by decide!) (by decide!) (by decide!)⟩

/-- C3: the chain-store invariants hold for `BlockChain::new` and are
preserved by every `add_block` call — including duplicate-key calls, where
the stored entry is overwritten in place at the same height — under two
SHA-256 collision-freedom idealizations only: the inserted hash is not the
all-zero genesis parent, and a hash already present belongs to a block with
the same header.  A block whose height merely ties the current tip height
never displaces the tip; and concretely: after adding `A` then `B`, both
extending genesis, the tip is `A`; after further adding `C` on top of `B`,
the tip is `C` and `main_chain_length() = 3`. -/
theorem c3_chain_invariants :
    ChainInv BlockChain.new ∧
    (∀ (c : BlockChain) (b : Block) (c' : BlockChain) (r : Bool),
      ChainInv c → headerMatches c b = true → b.hash ≠ zeroHash →
      c.add_block? b = some (c', r) → ChainInv c') ∧
    (∀ (c : BlockChain) (b : Block) (c' : BlockChain) (r : Bool) (pe te : BlockEntry),
      c.add_block? b = some (c', r) →
      alookup c.blocks b.header.prev_block_hash = some pe →
      c.highest_block_entry? = some te → pe.height + 1 = te.height →
      c'.highest_block_hash = c.highest_block_hash) ∧
    (BlockChain.new.add_block? blockA = some (chainA, true) ∧
     chainA.add_block? blockB = some (chainAB, true) ∧
     chainAB.highest_block? = some blockA ∧
     chainAB.add_block? blockC = some (chainABC, true) ∧
     chainABC.highest_block? = some blockC ∧
     chainABC.main_chain_length? = some 3) := by
  refine ⟨by decide!, ?_, ?_, by decide!, by decide!, by decide!, by decide!,
          by decide!, by decide!⟩
  · intro c b c' r hinv hhm hz hadd
    have hb : (b.is_valid?).isSome = true := by
      cases hv : b.is_valid? with
      | none => simp [BlockChain.add_block?, hv] at hadd
      | some v => simp
    obtain ⟨c'', r'', h1, _, _, _, _, h6⟩ := addBlock_main c b hinv hhm hb
    rw [hadd] at h1
    simp only [Option.some.injEq, Prod.mk.injEq] at h1
    rw [h1.1]
    exact h6 hz
  · intro c b c' r pe te hadd hp hte heq
    exact addBlock_tie c b c' r pe te hadd hp hte (Nat.le_of_eq heq)

theorem c3_witness : ChainInv chainA :=
  c3_chain_invariants.2.1 BlockChain.new blockA chainA true
    (by decide!) (by decide!) (by decide!) (by decide!)

/-- C4 counterexample: `[txA, txB, txC]` is a non-empty odd-length sequence
with last element `txC`, yet appending a duplicate of the last element
changes the Merkle root — the midpoint-split construction of `tx.rs` pairs
`(txA | txB txC)` on the left and `(txA txB | txC txC)` on the right, so the
duplicate-last identity claimed for all odd lengths fails already at length 3. -/
theorem c4_counterexample :
    [txA, txB, txC].length % 2 = 1 ∧ [txA, txB, txC] ≠ ([] : List Transaction) ∧
    [txA, txB, txC].getLastD txA = txC ∧
    Transactions.hash? ([txA, txB, txC] ++ [txC]) ≠ Transactions.hash? [txA, txB, txC] := by
  refine ⟨by decide, by decide, by decide, by decide!⟩

/-- C4 (amended): the duplicate-last identity holds in the only case the
recursion of `tx.rs` realises it, the singleton: `merkle([t, t]) = merkle([t])`
for every transaction `t`.  For odd lengths ≥ 3 the identity fails in general
(see the counterexample). -/
theorem c4_merkle_single_dup (t : Transaction) :
    Transactions.hash? [t, t] = Transactions.hash? [t] := rfl

/-- C5: the Merkle hash of the genesis transaction sequence equals the
compile-time constant `GENESIS_TXS_HASH`; the genesis header (nonce 437) is
valid, 437 is exactly what the nonce search finds and the least nonce whose
header hash has a leading zero byte; and a fresh chain has
`main_chain_length() = 1` with the genesis block as its highest block. -/
theorem c5_genesis_identity :
    Transactions.hash? Transactions.genesis = some GENESIS_TXS_HASH ∧
    GENESIS_HEADER.is_valid? = some true ∧
    GENESIS_HEADER.nonce = 437 ∧
    BlockHeader.solve? gBase = some 437 ∧
    (∀ m, m < 437 → okNonce? gBase m = some false) ∧
    okNonce? gBase 437 = some true ∧
    BlockChain.new.main_chain_length? = some 1 ∧
    BlockChain.new.highest_block? = some Block.genesis :=
  ⟨by decide!, by decide!, rfl, genesis_solve, genesis_low_nonces, genesis_ok_437,
   by decide!, by decide!⟩

theorem c5_witness : okNonce? gBase 100 = some false :=
  c5_genesis_identity.2.2.2.2.1 100 (by decide)

/-- C6 counterexample: re-delivering the current tip block (here: genesis, on
a fresh node) is rejected by `add_block` — the state is unchanged, there is
no reply, and the tip did not change, so the block did not *become* the tip —
yet the mining command is `Restart`, because the code tests whether the tip
*equals* the block after the call, not whether it changed. -/
theorem c6_counterexample :
    Node.handle? node0 (Message.NewBlock Block.genesis) =
      some (node0, none, MiningCommand.Restart) ∧
    Node.add_block? node0 Block.genesis = some (node0, false) ∧
    node0.chain.highest_block? = some Block.genesis := by
  refine ⟨by decide!, by decide!, by decide!⟩

/-- C6 (amended): handling `NewBlock(b)` calls `Node::add_block` (hence
`chain.add_block`); the reply is `NewBlock(b)` exactly when `b` was newly
accepted and nothing otherwise; and the mining command is `Restart` iff the
chain's highest block *after* the call equals `b` (which also happens when a
rejected `b` already is the tip), `Start` otherwise. -/
theorem c6_newblock (n : Node) (b : Block) (n' : Node) (rep : Option Message)
    (cmd : MiningCommand)
    (h : Node.handle? n (Message.NewBlock b) = some (n', rep, cmd)) :
    ∃ r, Node.add_block? n b = some (n', r) ∧
      (rep = if r = true then some (Message.NewBlock b) else none) ∧
      (cmd = if n'.chain.highest_block? = some b then MiningCommand.Restart
             else MiningCommand.Start) := by
  cases ha : n.add_block? b with
  | none => simp [Node.handle?, ha] at h
  | some p =>
    obtain ⟨n₁, is_new⟩ := p
    cases hh : n₁.chain.highest_block? with
    | none => simp [Node.handle?, ha, hh] at h
    | some hb =>
      simp only [Node.handle?, ha, hh, Option.some.injEq, Prod.mk.injEq] at h
      obtain ⟨hn, hrep, hcmd⟩ := h
      subst hn
      refine ⟨is_new, rfl, hrep.symm, ?_⟩
      rw [← hcmd, hh]
      by_cases hbe : hb = b
      · rw [if_pos hbe, if_pos (by rw [hbe])]
      · rw [if_neg hbe, if_neg (by simp [hbe])]

theorem c6_witness :
    ∃ r, Node.add_block? node0 blockA =
        some (({ node0 with chain := chainA } : Node), r) ∧
      (some (Message.NewBlock blockA) =
        if r = true then some (Message.NewBlock blockA) else none) ∧
      (MiningCommand.Restart =
        if ({ node0 with chain := chainA } : Node).chain.highest_block? = some blockA
        then MiningCommand.Restart else MiningCommand.Start) :=
  c6_newblock node0 blockA { node0 with chain := chainA }
    (some (Message.NewBlock blockA)) MiningCommand.Restart (by decide!)

/-- C7 counterexample: on a fresh node (address 0, no peers), `Connect(5)`
inserts 5 and replies `Addr([5, 0])` — the reply *contains* the connecting
address 5, because the code takes its 9 addresses from the peer set *after*
inserting the newcomer; the claim says the connecting address is excluded. -/
theorem c7_counterexample :
    Node.handle? node0 (Message.Connect 5) =
      some (({ node0 with peers := [5] } : Node), some (Message.Addr [5, 0]),
        MiningCommand.Keep) ∧
    (5 : Nat) ≠ node0.address ∧ 5 ∉ node0.peers := by
  refine ⟨by decide!, by decide, by decide⟩

/-- C7 (amended): `Connect(a)` with `a` equal to the node's address is a
no-op without reply; with `a` already known, no reply and no change; with `a`
new, `a` is appended to the peer set and the reply is `Addr` of up to 9
members of the *updated* peer set (which may include `a` itself) plus the
node's own address — at most 10 addresses in total.  The command is `Keep`
in every case. -/
theorem c7_connect (n : Node) (a : Nat) :
    (a = n.address → Node.handle? n (Message.Connect a) = some (n, none, MiningCommand.Keep)) ∧
    (a ≠ n.address → a ∈ n.peers →
      Node.handle? n (Message.Connect a) = some (n, none, MiningCommand.Keep)) ∧
    (a ≠ n.address → a ∉ n.peers →
      Node.handle? n (Message.Connect a) =
        some ({ n with peers := n.peers ++ [a] },
          some (Message.Addr ((n.peers ++ [a]).take 9 ++ [n.address])),
          MiningCommand.Keep) ∧
      ((n.peers ++ [a]).take 9 ++ [n.address]).length ≤ 10) := by
  refine ⟨fun h1 => ?_, fun h1 h2 => ?_, fun h1 h2 => ⟨?_, ?_⟩⟩
  · simp [Node.handle?, h1]
  · simp [Node.handle?, h1, h2]
  · simp [Node.handle?, h1, h2]
  · have := List.length_take_le 9 (n.peers ++ [a])
    simp only [List.length_append, List.length_cons, List.length_nil]
    omega

theorem c7_witness :
    Node.handle? node0 (Message.Connect 5) =
      some ({ node0 with peers := node0.peers ++ [5] },
        some (Message.Addr ((node0.peers ++ [5]).take 9 ++ [node0.address])),
        MiningCommand.Keep) ∧
    ((node0.peers ++ [5]).take 9 ++ [node0.address]).length ≤ 10 :=
  (c7_connect node0 5).2.2 (by decide) (by decide)

/-- C8: whenever `Node::add_block` accepts a (valid) block, every transaction
hash occurring in the block is afterwards absent from the mempool; when it
rejects the block, the mempool is unchanged. -/
theorem c8_mempool (n : Node) (b : Block) (n' : Node) (r : Bool)
    (_hv : b.is_valid? = some true)
    (h : Node.add_block? n b = some (n', r)) :
    (r = true → ∀ t ∈ b.transactions, mempoolContains n'.mempool t.hash = false) ∧
    (r = false → n'.mempool = n.mempool) := by
  cases ha : n.chain.add_block? b with
  | none => simp [Node.add_block?, ha] at h
  | some p =>
    obtain ⟨c', isn⟩ := p
    cases isn with
    | false =>
      simp only [Node.add_block?, ha, Bool.false_eq_true, if_neg, Option.some.injEq,
        Prod.mk.injEq, reduceIte] at h
      obtain ⟨hn, hr⟩ := h
      subst hn
      exact ⟨fun ht => absurd (hr ▸ ht) (by simp), fun _ => rfl⟩
    | true =>
      simp only [Node.add_block?, ha, Option.some.injEq, Prod.mk.injEq, if_pos,
        reduceIte] at h
      obtain ⟨hn, hr⟩ := h
      subst hn
      refine ⟨fun _ t ht => ?_, fun hf => absurd (hr ▸ hf) (by simp)⟩
      exact mempoolContains_filter (b.transactions.map Transaction.hash) t.hash
        (contains_hash_of_mem _ _ ht) n.mempool

theorem c8_witness :
    blockA.is_valid? = some true ∧
    Node.add_block? node0 blockA = some (({ node0 with chain := chainA } : Node), true) ∧
    (∀ t ∈ blockA.transactions,
      mempoolContains ({ node0 with chain := chainA } : Node).mempool t.hash = false) :=
  ⟨by decide!, by decide!,
   (c8_mempool node0 blockA { node0 with chain := chainA } true
      (by decide!) (by decide!)).1 rfl⟩

/-- C10 (frame): `Connect` and `Addr` leave the mempool, the chain, and the
node's address unchanged; `Tx` leaves the chain, the peer set, and the
address unchanged; `NewBlock` leaves the peer set and the address unchanged. -/
theorem c10_frame :
    (∀ (n : Node) (a : Nat) (n' : Node) (rep : Option Message) (cmd : MiningCommand),
        Node.handle? n (Message.Connect a) = some (n', rep, cmd) →
        n'.mempool = n.mempool ∧ n'.chain = n.chain ∧ n'.address = n.address) ∧
    (∀ (n : Node) (l : List Nat) (n' : Node) (rep : Option Message) (cmd : MiningCommand),
        Node.handle? n (Message.Addr l) = some (n', rep, cmd) →
        n'.mempool = n.mempool ∧ n'.chain = n.chain ∧ n'.address = n.address) ∧
    (∀ (n : Node) (txs : List Transaction) (n' : Node) (rep : Option Message)
        (cmd : MiningCommand),
        Node.handle? n (Message.Tx txs) = some (n', rep, cmd) →
        n'.chain = n.chain ∧ n'.peers = n.peers ∧ n'.address = n.address) ∧
    (∀ (n : Node) (b : Block) (n' : Node) (rep : Option Message) (cmd : MiningCommand),
        Node.handle? n (Message.NewBlock b) = some (n', rep, cmd) →
        n'.peers = n.peers ∧ n'.address = n.address) := by
  refine ⟨?_, ?_, ?_, ?_⟩
  · intro n a n' rep cmd h
    by_cases h1 : a = n.address
    · simp only [Node.handle?, if_pos h1, Option.some.injEq, Prod.mk.injEq] at h
      rw [← h.1]
      exact ⟨rfl, rfl, rfl⟩
    · by_cases h2 : a ∈ n.peers
      · simp only [Node.handle?, if_neg h1, if_pos h2, Option.some.injEq,
          Prod.mk.injEq] at h
        rw [← h.1]
        exact ⟨rfl, rfl, rfl⟩
      · simp only [Node.handle?, if_neg h1, if_neg h2, Option.some.injEq,
          Prod.mk.injEq] at h
        rw [← h.1]
        exact ⟨rfl, rfl, rfl⟩
  · intro n l n' rep cmd h
    simp only [Node.handle?, Option.some.injEq, Prod.mk.injEq] at h
    rw [← h.1]
    exact ⟨rfl, rfl, rfl⟩
  · intro n txs n' rep cmd h
    simp only [Node.handle?, Option.some.injEq, Prod.mk.injEq] at h
    rw [← h.1]
    exact ⟨rfl, rfl, rfl⟩
  · intro n b n' rep cmd h
    cases ha : n.chain.add_block? b with
    | none => simp [Node.handle?, Node.add_block?, ha] at h
    | some p =>
      obtain ⟨c', isn⟩ := p
      have hn' : ∃ rr, Node.add_block? n b = some (n', rr) := by
        cases hab : n.add_block? b with
        | none => simp [Node.handle?, hab] at h
        | some q =>
          obtain ⟨n₁, rr⟩ := q
          cases hh : n₁.chain.highest_block? with
          | none => simp [Node.handle?, hab, hh] at h
          | some hb =>
            simp only [Node.handle?, hab, hh, Option.some.injEq, Prod.mk.injEq] at h
            exact ⟨rr, by rw [h.1]⟩
      obtain ⟨rr, hab⟩ := hn'
      cases isn with
      | false =>
        simp only [Node.add_block?, ha, Bool.false_eq_true, Option.some.injEq,
          Prod.mk.injEq, reduceIte] at hab
        rw [← hab.1]
        exact ⟨rfl, rfl⟩
      | true =>
        simp only [Node.add_block?, ha, Option.some.injEq, Prod.mk.injEq,
          reduceIte] at hab
        rw [← hab.1]
        exact ⟨rfl, rfl⟩

theorem c10_witness :
    (({ node0 with peers := [5] } : Node).mempool = node0.mempool ∧
     ({ node0 with peers := [5] } : Node).chain = node0.chain ∧
     ({ node0 with peers := [5] } : Node).address = node0.address) :=
  c10_frame.1 node0 5 { node0 with peers := [5] } (some (Message.Addr [5, 0]))
    MiningCommand.Keep (by decide!)

end PoW
